import Mathlib

/-!
# Verification of the memory bandwidth saturation benchmark (`src/main.cpp`)

A shallow embedding of the benchmark's core: buffer partitioning across worker
threads, the per-thread sequential/random access loop (64-bit word arithmetic,
taken modulo `2^64` wherever the C++ `uint64_t` operations can wrap), result
publication and aggregation, the `StartGate` synchronization primitive (as a
transition system), configuration validation, and the throughput computation
(with the `double` arithmetic modelled by exact rationals).

Buffers are modelled as total functions `Nat → Nat`; a well-formed buffer holds
64-bit words, i.e. every cell is `< 2^64`.  Bitwise XOR of two words is again a
word, so writes need no explicit reduction; additions and shifts are reduced
modulo `2^64` exactly where the C++ `uint64_t` arithmetic wraps.
-/

namespace MemStress

/-- Modulus of 64-bit machine arithmetic. -/
def M64 : Nat := 2 ^ 64

/-- `static const int NUM_THREADS = 8;` (main.cpp line 16). -/
def NUM_THREADS : Nat := 8

/-- `static const size_t BUFFER_SIZE = 512ull*1024ull*1024ull;` (main.cpp line 17). -/
def BUFFER_SIZE : Nat := 512 * 1024 * 1024

/-- `static const int ITERATIONS = 10;` (main.cpp line 18). -/
def ITERATIONS : Nat := 10

/-- `const size_t words = BUFFER_SIZE / sizeof(std::uint64_t);` (line 61). -/
def wordCount (bufferSize : Nat) : Nat := bufferSize / 8

/-- `const size_t words_per_thread = (words + NUM_THREADS - 1) / NUM_THREADS;` (line 70). -/
def wordsPerThread (w n : Nat) : Nat := (w + n - 1) / n

/-- `const size_t begin = std::min(words, tid * words_per_thread);` (line 79). -/
def partBegin (w wpt t : Nat) : Nat := min w (t * wpt)

/-- `const size_t end = std::min(words, begin + words_per_thread);` (line 80). -/
def partEnd (w wpt t : Nat) : Nat := min w (partBegin w wpt t + wpt)

/-- The shared buffer, as a total map from word index to stored word. -/
abbrev Buffer := Nat → Nat

/-- A buffer is well formed when every cell holds a 64-bit word. -/
def WFBuffer (buf : Buffer) : Prop := ∀ i, buf i < M64

/-- Write mask of the sequential pass: `buf[i] = v ^ 0xA5A5A5A5A5A5A5A5ull` (line 102). -/
def SEQ_MASK : Nat := 0xA5A5A5A5A5A5A5A5

/-- Additive constant of the random-pass checksum:
`local_sum += (v + 0x9E3779B97F4A7C15ull)` (line 111). -/
def RAND_GAMMA : Nat := 0x9E3779B97F4A7C15

/-- Write mask of the random pass: `buf[i] = v ^ 0xDEADBEEFCAFEBABEull` (line 112). -/
def RAND_MASK : Nat := 0xDEADBEEFCAFEBABE

/-- One sequential pass over `k` consecutive indices starting at `i`
(the loop body of main.cpp lines 97-103): read `v = buf[i]`, fold it into the
running checksum `local_sum += v ^ (local_sum << 1)` in wrapping 64-bit
arithmetic, and write back `v ^ SEQ_MASK`.  Returns the updated buffer and
checksum. -/
def seqPassFrom : Buffer → Nat → Nat → Nat → Buffer × Nat
  | buf, sum, _, 0 => (buf, sum)
  | buf, sum, i, k + 1 =>
    seqPassFrom (Function.update buf i (buf i ^^^ SEQ_MASK))
      ((sum + (buf i ^^^ ((sum <<< 1) % M64))) % M64) (i + 1) k

/-- `std::uniform_int_distribution<size_t> dist(begin, end - 1)` (line 85) applied
to one raw 64-bit engine output `r`: a standard-conforming distribution returns a
value in the closed range `[b, e-1]`; we model it by the canonical modular
reduction `b + r % (e - b)`. -/
def distDraw (b e r : Nat) : Nat := b + r % (e - b)

/-- Output of one random pass: the updated buffer, the running checksum, the
index of the next unconsumed engine draw, and (ghost instrumentation) the list
of buffer indices the pass visited, in order. -/
structure RandOut where
  buf : Buffer
  sum : Nat
  next : Nat
  visited : List Nat

/-- One random pass performing `k` draws (the loop body of main.cpp lines
108-113): draw `i = dist(rng)`, read `v = buf[i]`, fold
`local_sum += v + RAND_GAMMA` in wrapping 64-bit arithmetic, and write back
`v ^ RAND_MASK`.  `draws d` is the `d`-th raw output of the worker's
`mt19937_64` engine. -/
def randPassFrom (draws : Nat → Nat) (b e : Nat) :
    Buffer → Nat → Nat → Nat → RandOut
  | buf, sum, d, 0 => ⟨buf, sum, d, []⟩
  | buf, sum, d, k + 1 =>
    let i := distDraw b e (draws d)
    let rest := randPassFrom draws b e (Function.update buf i (buf i ^^^ RAND_MASK))
      ((sum + (buf i + RAND_GAMMA)) % M64) (d + 1) k
    ⟨rest.buf, rest.sum, rest.next, i :: rest.visited⟩

/-- State threaded through the worker's main iteration loop. -/
structure LoopOut where
  buf : Buffer
  sum : Nat
  bytes : Nat
  next : Nat

/-- The worker's main loop (main.cpp lines 94-116): `iters` passes over the
partition `[b, e)`, sequential or random according to `ra`; after each pass
`bytes += (end - begin) * sizeof(uint64_t) * 2` in wrapping 64-bit
arithmetic. -/
def workerLoop (ra : Bool) (draws : Nat → Nat) (b e : Nat) :
    Nat → Buffer → Nat → Nat → Nat → LoopOut
  | 0, buf, sum, bytes, d => ⟨buf, sum, bytes, d⟩
  | iters + 1, buf, sum, bytes, d =>
    if ra then
      let p := randPassFrom draws b e buf sum d (e - b)
      workerLoop ra draws b e iters p.buf p.sum ((bytes + (e - b) * 8 * 2) % M64) p.next
    else
      let p := seqPassFrom buf sum b (e - b)
      workerLoop ra draws b e iters p.1 p.2 ((bytes + (e - b) * 8 * 2) % M64) d

/-- `struct ThreadResult` (main.cpp lines 38-41). -/
structure ThreadResult where
  bytes_processed : Nat
  checksum : Nat
deriving DecidableEq

/-- Per-worker PRNG seed:
`std::mt19937_64 rng(0xC0FFEEu ^ (static_cast<std::uint64_t>(tid) << 32))`
(main.cpp line 84). -/
def seedOf (tid : Nat) : Nat := (0xC0FFEE ^^^ ((tid <<< 32) % M64)) % M64

/-- The worker lambda (main.cpp lines 78-120): compute the partition, return
immediately when it is empty (publishing nothing), otherwise run the main loop
starting from zeroed local accumulators and publish `{bytes, checksum}` into
the result slot `results[tid]`.  `draws` abstracts the worker's seeded
`mt19937_64` output stream. -/
def worker (ra : Bool) (w n iters : Nat) (draws : Nat → Nat) (tid : Nat)
    (buf : Buffer) (results : List ThreadResult) : Buffer × List ThreadResult :=
  let wpt := wordsPerThread w n
  let b := partBegin w wpt tid
  let e := partEnd w wpt tid
  if e ≤ b then (buf, results)
  else
    let out := workerLoop ra draws b e iters buf 0 0 0
    (out.buf, results.set tid ⟨out.bytes, out.sum⟩)

/-- Run the workers listed in `order` one after the other on the shared buffer.
Because the partitions are pairwise disjoint, sequentialising the workers in an
arbitrary order captures every interleaving of the real threads; `draws t` is
worker `t`'s engine stream (determined by `seedOf t` in the program). -/
def runWorkers (ra : Bool) (w n iters : Nat) (draws : Nat → Nat → Nat) :
    List Nat → Buffer → List ThreadResult → Buffer × List ThreadResult
  | [], buf, results => (buf, results)
  | t :: rest, buf, results =>
    let s := worker ra w n iters (draws t) t buf results
    runWorkers ra w n iters draws rest s.1 s.2

/-- `std::vector<ThreadResult> results(NUM_THREADS);` (line 75): value-initialised. -/
def initResults (n : Nat) : List ThreadResult := List.replicate n ⟨0, 0⟩

/-- `total_bytes += r.bytes_processed` over all result slots (lines 137-140),
in wrapping 64-bit arithmetic. -/
def totalBytes (results : List ThreadResult) : Nat :=
  results.foldl (fun acc r => (acc + r.bytes_processed) % M64) 0

/-- `total_checksum ^= r.checksum` over all result slots (lines 138-141). -/
def totalChecksum (results : List ThreadResult) : Nat :=
  results.foldl (fun acc r => acc ^^^ r.checksum) 0

/-- Size of worker `t`'s partition. -/
def partSize (w n t : Nat) : Nat :=
  partEnd w (wordsPerThread w n) t - partBegin w (wordsPerThread w n) t

/-- The spec's byte-accounting formula, stated from the spec's words for
comparison with the aggregation the code performs: each worker contributes its
partition size multiplied by `iterations * 2 * sizeof(word)`, `sizeof(word) = 8`. -/
def specTotalBytes (w n iters : Nat) : Nat :=
  ((List.range n).map (fun t => partSize w n t * iters * 2 * 8)).sum

/-- The loop output worker `tid` computes when it observes buffer `buf`
(local accumulators start at zero, as in the worker lambda). -/
def localOut (ra : Bool) (w n iters : Nat) (draws : Nat → Nat) (tid : Nat)
    (buf : Buffer) : LoopOut :=
  workerLoop ra draws (partBegin w (wordsPerThread w n) tid)
    (partEnd w (wordsPerThread w n) tid) iters buf 0 0 0

/-- The effect of worker `tid` on the result vector when it observes buffer
`buf`: publish `{bytes, checksum}` into its own slot, or nothing when its
partition is empty. -/
def publishSlot (ra : Bool) (w n iters : Nat) (draws : Nat → Nat) (tid : Nat)
    (buf : Buffer) (res : List ThreadResult) : List ThreadResult :=
  if partEnd w (wordsPerThread w n) tid ≤ partBegin w (wordsPerThread w n) tid then res
  else res.set tid ⟨(localOut ra w n iters draws tid buf).bytes,
    (localOut ra w n iters draws tid buf).sum⟩

/-- Observable orchestration events of `main`, in program order. -/
inductive MainEvent
  | banner
  | configError
  | alloc
  | spawn (tid : Nat)
  | release
  | join
deriving DecidableEq

/-- The orchestration skeleton of `main` (lines 52-134) as an event trace plus
exit code: print the banner, check `words == 0` (line 62) and on failure print
to stderr and return 1 before any allocation or spawn; otherwise allocate the
buffer, spawn `n` workers, release the gate, join, and return 0. -/
def mainRun (bufferSize n : Nat) : List MainEvent × Nat :=
  if wordCount bufferSize = 0 then ([.banner, .configError], 1)
  else (([.banner, .alloc] ++ (List.range n).map .spawn) ++ [.release, .join], 0)

/-- The process exit code of `main` for a given configuration. -/
def exitCode (bufferSize n : Nat) : Nat := (mainRun bufferSize n).2

/-- Throughput computation (main.cpp lines 146-147):
`mb = total_bytes / (1024.0*1024.0)`; `mbps = seconds > 0 ? mb / seconds : 0.0`,
with the `double` arithmetic modelled by exact rationals (which have no
infinities or NaNs, so finiteness is intrinsic to the model). -/
def throughputMBps (seconds : ℚ) (tb : Nat) : ℚ :=
  if 0 < seconds then ((tb : ℚ) / (1024 * 1024)) / seconds else 0

/-! ## The `StartGate` as a transition system

`StartGate` (main.cpp lines 23-36) holds a mutex, a condition variable and a
flag `go`.  `wait()` blocks on the condition variable until `go` is true (the
predicate form of `cv.wait` also absorbs spurious wakeups); `release()` sets
`go = true` under the lock and notifies all waiters.  We model the gate
together with the worker threads' control locations; `released` is a history
flag recording that `release()` has executed. -/

/-- Control location of one worker thread relative to the gate. -/
inductive WPc
  | setup
  | waiting
  | timedLoop
  | done
deriving DecidableEq

/-- Global state: the gate's `go` flag, the `release()` history flag, and each
worker's control location. -/
structure GateSys (n : Nat) where
  go : Bool
  released : Bool
  pc : Fin n → WPc

/-- Initial state: `go = false`, nothing released, all workers in setup. -/
def GateSys.init (n : Nat) : GateSys n := ⟨false, false, fun _ => .setup⟩

/-- One step of the gate system: a worker finishes setup and calls `wait()`;
a waiting worker passes `wait()` — only possible when `go` is true, since
`cv.wait(lk, [&]{ return go; })` re-checks the predicate on every wakeup;
the orchestrator calls `release()`, setting `go`; a running worker finishes
its timed loop. -/
inductive GateStep {n : Nat} : GateSys n → GateSys n → Prop
  | callWait (s : GateSys n) (t : Fin n) : s.pc t = .setup →
      GateStep s { s with pc := Function.update s.pc t .waiting }
  | passWait (s : GateSys n) (t : Fin n) : s.pc t = .waiting → s.go = true →
      GateStep s { s with pc := Function.update s.pc t .timedLoop }
  | release (s : GateSys n) :
      GateStep s { s with go := true, released := true }
  | finish (s : GateSys n) (t : Fin n) : s.pc t = .timedLoop →
      GateStep s { s with pc := Function.update s.pc t .done }

/-- States reachable from the initial state. -/
inductive GateReachable {n : Nat} : GateSys n → Prop
  | init : GateReachable (GateSys.init n)
  | step {s s' : GateSys n} : GateReachable s → GateStep s s' → GateReachable s'

/-! ## Pass-level lemmas -/

theorem seqPassFrom_buf (k : Nat) : ∀ (buf : Buffer) (sum i j : Nat),
    (seqPassFrom buf sum i k).1 j =
      if i ≤ j ∧ j < i + k then buf j ^^^ SEQ_MASK else buf j := by
  induction k with
  | zero =>
    intro buf sum i j
    simp only [seqPassFrom]
    rw [if_neg (by omega)]
  | succ k ih =>
    intro buf sum i j
    simp only [seqPassFrom]
    rw [ih]
    by_cases hj : j = i
    · subst hj
      rw [if_neg (by omega), Function.update_same, if_pos (by omega)]
    · rw [Function.update_noteq hj]
      by_cases hc : i ≤ j ∧ j < i + (k + 1)
      · rw [if_pos (by omega), if_pos hc]
      · rw [if_neg (by omega), if_neg hc]

theorem seqPassFrom_sum_congr (k : Nat) : ∀ (buf1 buf2 : Buffer) (sum i : Nat),
    (∀ j, i ≤ j → j < i + k → buf1 j = buf2 j) →
    (seqPassFrom buf1 sum i k).2 = (seqPassFrom buf2 sum i k).2 := by
  induction k with
  | zero => intro buf1 buf2 sum i _; rfl
  | succ k ih =>
    intro buf1 buf2 sum i h
    have hi : buf1 i = buf2 i := h i (le_refl i) (by omega)
    simp only [seqPassFrom, hi]
    refine ih _ _ _ _ (fun j h1 h2 => ?_)
    have hj : j ≠ i := by omega
    rw [Function.update_noteq hj, Function.update_noteq hj]
    exact h j (by omega) (by omega)

theorem distDraw_mem (b e r : Nat) (h : b < e) :
    b ≤ distDraw b e r ∧ distDraw b e r < e := by
  unfold distDraw
  have := Nat.mod_lt r (show 0 < e - b by omega)
  omega

theorem randPassFrom_visited (k : Nat) :
    ∀ (draws : Nat → Nat) (b e : Nat) (buf : Buffer) (sum d : Nat), b < e →
    (randPassFrom draws b e buf sum d k).visited.length = k ∧
    ∀ i ∈ (randPassFrom draws b e buf sum d k).visited, b ≤ i ∧ i < e := by
  induction k with
  | zero =>
    intro draws b e buf sum d _
    exact ⟨rfl, by intro i hi; simp [randPassFrom] at hi⟩
  | succ k ih =>
    intro draws b e buf sum d hbe
    simp only [randPassFrom]
    obtain ⟨hlen, hmem⟩ := ih draws b e
      (Function.update buf (distDraw b e (draws d)) (buf (distDraw b e (draws d)) ^^^ RAND_MASK))
      ((sum + (buf (distDraw b e (draws d)) + RAND_GAMMA)) % M64) (d + 1) hbe
    refine ⟨by simp [hlen], ?_⟩
    intro i hi
    rcases List.mem_cons.mp hi with h | h
    · subst h; exact distDraw_mem b e (draws d) hbe
    · exact hmem i h

theorem randPassFrom_next (k : Nat) : ∀ (draws : Nat → Nat) (b e : Nat)
    (buf : Buffer) (sum d : Nat), (randPassFrom draws b e buf sum d k).next = d + k := by
  induction k with
  | zero => intro draws b e buf sum d; rfl
  | succ k ih =>
    intro draws b e buf sum d
    simp only [randPassFrom]
    rw [ih]
    omega

theorem randPassFrom_frame (k : Nat) : ∀ (draws : Nat → Nat) (b e : Nat)
    (buf : Buffer) (sum d j : Nat), b < e → (j < b ∨ e ≤ j) →
    (randPassFrom draws b e buf sum d k).buf j = buf j := by
  induction k with
  | zero => intro draws b e buf sum d j _ _; rfl
  | succ k ih =>
    intro draws b e buf sum d j hbe hj
    simp only [randPassFrom]
    rw [ih draws b e _ _ _ _ hbe hj]
    have hmem := distDraw_mem b e (draws d) hbe
    exact Function.update_noteq (by omega) _ buf

theorem randPassFrom_congr (k : Nat) : ∀ (draws : Nat → Nat) (b e : Nat)
    (buf1 buf2 : Buffer) (sum d : Nat), b < e →
    (∀ j, b ≤ j → j < e → buf1 j = buf2 j) →
    (randPassFrom draws b e buf1 sum d k).sum = (randPassFrom draws b e buf2 sum d k).sum ∧
    (∀ j, b ≤ j → j < e →
      (randPassFrom draws b e buf1 sum d k).buf j = (randPassFrom draws b e buf2 sum d k).buf j) := by
  induction k with
  | zero =>
    intro draws b e buf1 buf2 sum d _ h
    exact ⟨rfl, fun j h1 h2 => h j h1 h2⟩
  | succ k ih =>
    intro draws b e buf1 buf2 sum d hbe h
    have hi : buf1 (distDraw b e (draws d)) = buf2 (distDraw b e (draws d)) := by
      have hm := distDraw_mem b e (draws d) hbe
      exact h _ hm.1 hm.2
    simp only [randPassFrom, hi]
    refine ih draws b e _ _ _ _ hbe (fun j h1 h2 => ?_)
    by_cases hj : j = distDraw b e (draws d)
    · subst hj; rw [Function.update_same, Function.update_same]
    · rw [Function.update_noteq hj, Function.update_noteq hj]
      exact h j h1 h2

/-! ## Partition lemmas -/

theorem wordsPerThread_pos (w n : Nat) (hw : 1 ≤ w) (hn : 1 ≤ n) :
    1 ≤ wordsPerThread w n := by
  unfold wordsPerThread
  rw [Nat.le_div_iff_mul_le (show 0 < n by omega)]
  omega

theorem le_mul_wordsPerThread (w n : Nat) (hn : 1 ≤ n) :
    w ≤ n * wordsPerThread w n := by
  unfold wordsPerThread
  have h := Nat.div_add_mod (w + n - 1) n
  have h2 := Nat.mod_lt (w + n - 1) (show 0 < n by omega)
  omega

theorem partEnd_eq_min (w wpt t : Nat) :
    partEnd w wpt t = min w ((t + 1) * wpt) := by
  have h : (t + 1) * wpt = t * wpt + wpt := by ring
  simp only [partEnd, partBegin]
  omega

theorem partEnd_eq_partBegin_succ (w wpt t : Nat) :
    partEnd w wpt t = partBegin w wpt (t + 1) := by
  rw [partEnd_eq_min]; rfl

theorem partEnd_le_partBegin_of_lt (w wpt t1 t2 : Nat) (h : t1 < t2) :
    partEnd w wpt t1 ≤ partBegin w wpt t2 := by
  rw [partEnd_eq_min]
  have h2 : (t1 + 1) * wpt ≤ t2 * wpt := Nat.mul_le_mul_right wpt (by omega)
  simp only [partBegin]
  omega

theorem partition_mem_of_div (w wpt i : Nat) (hi : i < w) (hwpt : 0 < wpt) :
    partBegin w wpt (i / wpt) ≤ i ∧ i < partEnd w wpt (i / wpt) := by
  have hle : i / wpt * wpt ≤ i := Nat.div_mul_le_self i wpt
  have hlt : i < (i / wpt + 1) * wpt := by
    have h := Nat.div_add_mod i wpt
    have h2 := Nat.mod_lt i hwpt
    have h3 : (i / wpt + 1) * wpt = wpt * (i / wpt) + wpt := by ring
    omega
  rw [partEnd_eq_min]
  simp only [partBegin]
  omega

theorem partition_unique (w wpt i t : Nat) (hi : i < w)
    (h1 : partBegin w wpt t ≤ i) (h2 : i < partEnd w wpt t) : t = i / wpt := by
  have hb : t * wpt ≤ i := by simp only [partBegin] at h1; omega
  have he : i < (t + 1) * wpt := by rw [partEnd_eq_min] at h2; omega
  exact (Nat.div_eq_of_lt_le hb he).symm

/-- Claim C1: For every buffer word count `w ≥ 1` and thread count `n ≥ 1`, the
worker partitions `[min(w, t·⌈w/n⌉), min(w, (t+1)·⌈w/n⌉))` are contiguous
(`end t = begin (t+1)`), start at 0, end at `w`, are non-overlapping (ordered),
cover every index `i < w` exactly once, and any partition past the end of the
buffer is empty. -/
theorem partition_tiling (w n : Nat) (hw : 1 ≤ w) (hn : 1 ≤ n) :
    (∀ t, partEnd w (wordsPerThread w n) t = partBegin w (wordsPerThread w n) (t + 1)) ∧
    partBegin w (wordsPerThread w n) 0 = 0 ∧
    partEnd w (wordsPerThread w n) (n - 1) = w ∧
    (∀ t1 t2, t1 < t2 →
      partEnd w (wordsPerThread w n) t1 ≤ partBegin w (wordsPerThread w n) t2) ∧
    (∀ i, i < w → ∃! t, t < n ∧ partBegin w (wordsPerThread w n) t ≤ i ∧
      i < partEnd w (wordsPerThread w n) t) ∧
    (∀ t, w ≤ t * wordsPerThread w n →
      partBegin w (wordsPerThread w n) t = partEnd w (wordsPerThread w n) t) := by
  set wpt := wordsPerThread w n with hwpt
  have hpos : 0 < wpt := wordsPerThread_pos w n hw hn
  have hcov : w ≤ n * wpt := le_mul_wordsPerThread w n hn
  refine ⟨fun t => partEnd_eq_partBegin_succ w wpt t, by simp [partBegin], ?_, ?_, ?_, ?_⟩
  · rw [partEnd_eq_min]
    have h1 : n - 1 + 1 = n := by omega
    rw [h1]
    omega
  · exact fun t1 t2 h => partEnd_le_partBegin_of_lt w wpt t1 t2 h
  · intro i hi
    refine ⟨i / wpt, ⟨?_, partition_mem_of_div w wpt i hi hpos⟩, ?_⟩
    · have : i < n * wpt := by omega
      rw [Nat.div_lt_iff_lt_mul hpos]
      omega
    · intro t ht
      exact partition_unique w wpt i t hi ht.2.1 ht.2.2
  · intro t ht
    simp only [partBegin, partEnd]
    omega

/-- Witness for C1 at the concrete configuration `w = 10`, `n = 4`
(`⌈10/4⌉ = 3`, partitions `[0,3) [3,6) [6,9) [9,10)`). -/
theorem partition_tiling_witness :
    partEnd 10 (wordsPerThread 10 4) 3 = 10 ∧ partBegin 10 (wordsPerThread 10 4) 0 = 0 :=
  ⟨(partition_tiling 10 4 (by omega) (by omega)).2.2.1,
   (partition_tiling 10 4 (by omega) (by omega)).2.1⟩

theorem partition_disjoint (w wpt t t' j : Nat) (hne : t' ≠ t)
    (h1 : partBegin w wpt t' ≤ j) (h2 : j < partEnd w wpt t') :
    j < partBegin w wpt t ∨ partEnd w wpt t ≤ j := by
  rcases Nat.lt_or_ge t' t with h | h
  · left
    have := partEnd_le_partBegin_of_lt w wpt t' t h
    omega
  · have ht : t < t' := by omega
    right
    have := partEnd_le_partBegin_of_lt w wpt t t' ht
    omega

/-! ## Worker-loop lemmas -/

theorem M64_pos : 0 < M64 := by
  unfold M64
  positivity

theorem workerLoop_bytes (iters : Nat) : ∀ (ra : Bool) (draws : Nat → Nat)
    (b e : Nat) (buf : Buffer) (sum bytes d : Nat), bytes < M64 →
    (workerLoop ra draws b e iters buf sum bytes d).bytes =
      (bytes + iters * ((e - b) * 8 * 2)) % M64 := by
  induction iters with
  | zero =>
    intro ra draws b e buf sum bytes d hb
    simp only [workerLoop, Nat.zero_mul, Nat.add_zero]
    exact (Nat.mod_eq_of_lt hb).symm
  | succ it ih =>
    intro ra draws b e buf sum bytes d hb
    have hmod : (bytes + (e - b) * 8 * 2) % M64 < M64 := Nat.mod_lt _ M64_pos
    have harith : bytes + (e - b) * 8 * 2 + it * ((e - b) * 8 * 2)
        = bytes + (it + 1) * ((e - b) * 8 * 2) := by ring
    cases ra with
    | false =>
      simp only [workerLoop]
      rw [if_neg (by simp), ih false draws b e _ _ _ _ hmod, Nat.mod_add_mod, harith]
    | true =>
      simp only [workerLoop]
      rw [if_pos trivial, ih true draws b e _ _ _ _ hmod, Nat.mod_add_mod, harith]

theorem workerLoop_frame (iters : Nat) : ∀ (ra : Bool) (draws : Nat → Nat)
    (b e : Nat) (buf : Buffer) (sum bytes d j : Nat), b < e → (j < b ∨ e ≤ j) →
    (workerLoop ra draws b e iters buf sum bytes d).buf j = buf j := by
  induction iters with
  | zero => intro ra draws b e buf sum bytes d j _ _; rfl
  | succ it ih =>
    intro ra draws b e buf sum bytes d j hbe hj
    cases ra with
    | false =>
      simp only [workerLoop]
      rw [if_neg (by simp), ih false draws b e _ _ _ _ _ hbe hj, seqPassFrom_buf,
        if_neg (by omega)]
    | true =>
      simp only [workerLoop]
      rw [if_pos trivial, ih true draws b e _ _ _ _ _ hbe hj,
        randPassFrom_frame (e - b) draws b e buf sum d j hbe hj]

theorem workerLoop_congr (iters : Nat) : ∀ (ra : Bool) (draws : Nat → Nat) (b e : Nat)
    (buf1 buf2 : Buffer) (sum bytes d : Nat), b < e →
    (∀ j, b ≤ j → j < e → buf1 j = buf2 j) →
    (workerLoop ra draws b e iters buf1 sum bytes d).sum =
      (workerLoop ra draws b e iters buf2 sum bytes d).sum ∧
    (workerLoop ra draws b e iters buf1 sum bytes d).bytes =
      (workerLoop ra draws b e iters buf2 sum bytes d).bytes ∧
    (∀ j, b ≤ j → j < e →
      (workerLoop ra draws b e iters buf1 sum bytes d).buf j =
        (workerLoop ra draws b e iters buf2 sum bytes d).buf j) := by
  induction iters with
  | zero => intro ra draws b e buf1 buf2 sum bytes d _ h; exact ⟨rfl, rfl, h⟩
  | succ it ih =>
    intro ra draws b e buf1 buf2 sum bytes d hbe h
    cases ra with
    | false =>
      simp only [workerLoop]
      rw [if_neg (by simp)]
      have hsum := seqPassFrom_sum_congr (e - b) buf1 buf2 sum b
        (fun j h1 h2 => h j h1 (by omega))
      have hbuf : ∀ j, b ≤ j → j < e →
          (seqPassFrom buf1 sum b (e - b)).1 j = (seqPassFrom buf2 sum b (e - b)).1 j := by
        intro j h1 h2
        rw [seqPassFrom_buf, seqPassFrom_buf, if_pos (by omega), if_pos (by omega),
          h j h1 h2]
      rw [hsum]
      exact ih false draws b e _ _ _ _ _ hbe hbuf
    | true =>
      simp only [workerLoop]
      rw [if_pos trivial]
      obtain ⟨hsum, hbuf⟩ := randPassFrom_congr (e - b) draws b e buf1 buf2 sum d hbe h
      rw [hsum, randPassFrom_next (e - b) draws b e buf1 sum d,
        randPassFrom_next (e - b) draws b e buf2 sum d]
      exact ih true draws b e _ _ _ _ _ hbe hbuf

theorem workerLoop_seq_buf (iters : Nat) : ∀ (draws : Nat → Nat) (b e : Nat)
    (buf : Buffer) (sum bytes d j : Nat),
    (workerLoop false draws b e iters buf sum bytes d).buf j =
      if b ≤ j ∧ j < e then (fun v => v ^^^ SEQ_MASK)^[iters] (buf j) else buf j := by
  induction iters with
  | zero =>
    intro draws b e buf sum bytes d j
    simp only [workerLoop, Function.iterate_zero, id]
    split <;> rfl
  | succ it ih =>
    intro draws b e buf sum bytes d j
    simp only [workerLoop]
    rw [if_neg (by simp), ih draws b e _ _ _ _ j, seqPassFrom_buf]
    by_cases hc : b ≤ j ∧ j < e
    · rw [if_pos hc, if_pos (by omega), if_pos hc]
      simp only [Function.iterate_succ_apply]
    · rw [if_neg hc, if_neg (by omega), if_neg hc]

theorem xorMask_iterate_even (k : Nat) : ∀ v : Nat,
    (fun v => v ^^^ SEQ_MASK)^[2 * k] v = v := by
  induction k with
  | zero => intro v; rfl
  | succ k ih =>
    intro v
    have h2 : 2 * (k + 1) = 2 * k + 1 + 1 := by ring
    rw [h2]
    simp only [Function.iterate_succ_apply]
    rw [Nat.xor_cancel_right]
    exact ih v

/-! ## Worker- and run-level lemmas -/

theorem worker_buf_frame (ra : Bool) (w n iters : Nat) (draws : Nat → Nat)
    (tid : Nat) (buf : Buffer) (results : List ThreadResult) (j : Nat)
    (hj : j < partBegin w (wordsPerThread w n) tid ∨
      partEnd w (wordsPerThread w n) tid ≤ j) :
    (worker ra w n iters draws tid buf results).1 j = buf j := by
  simp only [worker]
  split_ifs with hbe
  · rfl
  · exact workerLoop_frame iters ra draws _ _ buf 0 0 0 j (by omega) hj

theorem worker_results_eq (ra : Bool) (w n iters : Nat) (draws : Nat → Nat)
    (tid : Nat) (buf buf' : Buffer) (results : List ThreadResult)
    (h : ∀ j, partBegin w (wordsPerThread w n) tid ≤ j →
      j < partEnd w (wordsPerThread w n) tid → buf' j = buf j) :
    (worker ra w n iters draws tid buf' results).2 =
      publishSlot ra w n iters draws tid buf results := by
  simp only [worker, publishSlot, localOut]
  split_ifs with hbe
  · rfl
  · obtain ⟨hsum, hbytes, _⟩ :=
      workerLoop_congr iters ra draws _ _ buf' buf 0 0 0 (by omega) h
    rw [hsum, hbytes]

theorem publishSlot_get_ne (ra : Bool) (w n iters : Nat) (draws : Nat → Nat)
    (tid : Nat) (buf : Buffer) (res : List ThreadResult) (j : Nat) (hj : tid ≠ j) :
    (publishSlot ra w n iters draws tid buf res)[j]? = res[j]? := by
  simp only [publishSlot]
  split_ifs with hbe
  · rfl
  · exact List.getElem?_set_ne hj

theorem publishSlot_length (ra : Bool) (w n iters : Nat) (draws : Nat → Nat)
    (tid : Nat) (buf : Buffer) (res : List ThreadResult) :
    (publishSlot ra w n iters draws tid buf res).length = res.length := by
  simp only [publishSlot]
  split_ifs with hbe
  · rfl
  · exact List.length_set res tid _

theorem runWorkers_results_eq (order : List Nat) : ∀ (ra : Bool) (w n iters : Nat)
    (draws : Nat → Nat → Nat) (buf buf' : Buffer) (res : List ThreadResult),
    order.Nodup →
    (∀ t ∈ order, ∀ j, partBegin w (wordsPerThread w n) t ≤ j →
      j < partEnd w (wordsPerThread w n) t → buf' j = buf j) →
    (runWorkers ra w n iters draws order buf' res).2 =
      order.foldl (fun r t => publishSlot ra w n iters (draws t) t buf r) res := by
  induction order with
  | nil => intro ra w n iters draws buf buf' res _ _; rfl
  | cons t rest ih =>
    intro ra w n iters draws buf buf' res hnd h
    simp only [runWorkers, List.foldl_cons]
    rw [worker_results_eq ra w n iters (draws t) t buf buf' res
      (h t (List.mem_cons_self t rest))]
    apply ih
    · exact hnd.of_cons
    · intro t' ht' j hj1 hj2
      have htne : t' ≠ t := by
        intro hcontra
        subst hcontra
        exact (List.nodup_cons.mp hnd).1 ht'
      rw [worker_buf_frame ra w n iters (draws t) t buf' res j
        (partition_disjoint w (wordsPerThread w n) t t' j htne hj1 hj2)]
      exact h t' (List.mem_cons_of_mem t ht') j hj1 hj2

theorem publish_foldl_perm (ra : Bool) (w n iters : Nat) (draws : Nat → Nat → Nat)
    (buf : Buffer) (o1 o2 : List Nat) (hperm : o1.Perm o2) (res : List ThreadResult) :
    o1.foldl (fun r t => publishSlot ra w n iters (draws t) t buf r) res =
      o2.foldl (fun r t => publishSlot ra w n iters (draws t) t buf r) res := by
  refine hperm.foldl_eq' ?_ res
  intro x _ y _ z
  by_cases hxy : x = y
  · subst hxy; rfl
  · by_cases hx : partEnd w (wordsPerThread w n) x ≤ partBegin w (wordsPerThread w n) x
      <;> by_cases hy : partEnd w (wordsPerThread w n) y ≤ partBegin w (wordsPerThread w n) y
    · simp only [publishSlot, if_pos hx, if_pos hy]
    · simp only [publishSlot, if_pos hx, if_neg hy]
    · simp only [publishSlot, if_neg hx, if_pos hy]
    · simp only [publishSlot, if_neg hx, if_neg hy]
      exact List.set_comm _ _ z hxy

theorem publish_foldl_not_mem (order : List Nat) : ∀ (ra : Bool) (w n iters : Nat)
    (draws : Nat → Nat → Nat) (buf : Buffer) (res : List ThreadResult) (t : Nat),
    t ∉ order →
    (order.foldl (fun r t' => publishSlot ra w n iters (draws t') t' buf r) res)[t]? =
      res[t]? := by
  induction order with
  | nil => intro ra w n iters draws buf res t _; rfl
  | cons t' rest ih =>
    intro ra w n iters draws buf res t ht
    have ht1 : t' ≠ t := fun hc => ht (List.mem_cons.mpr (Or.inl hc.symm))
    have ht2 : t ∉ rest := fun hc => ht (List.mem_cons.mpr (Or.inr hc))
    simp only [List.foldl_cons]
    rw [ih ra w n iters draws buf _ t ht2]
    exact publishSlot_get_ne ra w n iters (draws t') t' buf res t ht1

theorem publish_foldl_mem (order : List Nat) : ∀ (ra : Bool) (w n iters : Nat)
    (draws : Nat → Nat → Nat) (buf : Buffer) (res : List ThreadResult) (t : Nat),
    order.Nodup → t ∈ order → t < res.length →
    (order.foldl (fun r t' => publishSlot ra w n iters (draws t') t' buf r) res)[t]? =
      if partEnd w (wordsPerThread w n) t ≤ partBegin w (wordsPerThread w n) t
      then res[t]?
      else some ⟨(localOut ra w n iters (draws t) t buf).bytes,
        (localOut ra w n iters (draws t) t buf).sum⟩ := by
  induction order with
  | nil => intro ra w n iters draws buf res t _ hmem _; cases hmem
  | cons t' rest ih =>
    intro ra w n iters draws buf res t hnd hmem hlen
    simp only [List.foldl_cons]
    by_cases ht : t = t'
    · subst ht
      have hnin : t ∉ rest := (List.nodup_cons.mp hnd).1
      rw [publish_foldl_not_mem rest ra w n iters draws buf _ t hnin]
      simp only [publishSlot]
      split_ifs with hb
      · rfl
      · simp [List.getElem?_set_self, hlen]
    · have hmem' : t ∈ rest := by
        rcases List.mem_cons.mp hmem with h | h
        · exact absurd h ht
        · exact h
      rw [ih ra w n iters draws buf _ t hnd.of_cons hmem'
        (by rw [publishSlot_length]; exact hlen)]
      split_ifs with hb
      · exact publishSlot_get_ne ra w n iters (draws t') t' buf res t
          (fun hc => ht hc.symm)
      · rfl

theorem publish_foldl_range (ra : Bool) (w n iters : Nat) (draws : Nat → Nat → Nat)
    (buf : Buffer) :
    (List.range n).foldl (fun r t => publishSlot ra w n iters (draws t) t buf r)
        (initResults n) =
      (List.range n).map (fun t =>
        if partEnd w (wordsPerThread w n) t ≤ partBegin w (wordsPerThread w n) t
        then ⟨0, 0⟩
        else ⟨(localOut ra w n iters (draws t) t buf).bytes,
          (localOut ra w n iters (draws t) t buf).sum⟩) := by
  refine List.ext_getElem? (fun i => ?_)
  by_cases hi : i < n
  · rw [publish_foldl_mem (List.range n) ra w n iters draws buf (initResults n) i
      (List.nodup_range n) (List.mem_range.mpr hi)
      (by simp only [initResults, List.length_replicate]; omega)]
    rw [List.getElem?_map]
    rw [show (List.range n)[i]? = some i by simp [List.getElem?_range, hi]]
    rw [show (initResults n)[i]? = some ⟨0, 0⟩ by
      simp [initResults, List.getElem?_replicate, hi]]
    by_cases hb : partEnd w (wordsPerThread w n) i ≤ partBegin w (wordsPerThread w n) i
    · rw [if_pos hb]
      simp only [Option.map_some']
      rw [if_pos hb]
    · rw [if_neg hb]
      simp only [Option.map_some']
      rw [if_neg hb]
  · have hnin : i ∉ List.range n := by simp [List.mem_range]; omega
    rw [publish_foldl_not_mem (List.range n) ra w n iters draws buf (initResults n) i hnin]
    rw [List.getElem?_eq_none (by simp [initResults]; omega),
      List.getElem?_eq_none (by simp; omega)]

theorem totalBytes_foldl (l : List ThreadResult) : ∀ acc, acc < M64 →
    l.foldl (fun a r => (a + r.bytes_processed) % M64) acc
      = (acc + (l.map ThreadResult.bytes_processed).sum) % M64 := by
  induction l with
  | nil =>
    intro acc h
    simp [Nat.mod_eq_of_lt h]
  | cons r rest ih =>
    intro acc h
    simp only [List.foldl_cons, List.map_cons, List.sum_cons]
    rw [ih _ (Nat.mod_lt _ M64_pos), Nat.mod_add_mod]
    congr 1
    omega

/-- Claim C2: For every configuration (word count `w`, thread count `n ≥ 1`,
iteration count `iters`) and either access mode, the aggregated `total_bytes`
after the run equals the sum over all workers of their partition size
multiplied by `iters * 2 * sizeof(word)` with `sizeof(word) = 8` — exact
integer equality (the hypothesis `specTotalBytes w n iters < 2^64` rules out
wrap-around of the 64-bit accumulators, and holds for every configuration that
can actually be compiled and allocated). -/
theorem total_bytes_eq_spec (ra : Bool) (w n iters : Nat) (draws : Nat → Nat → Nat)
    (buf : Buffer) (hn : 1 ≤ n) (hov : specTotalBytes w n iters < M64) :
    totalBytes (runWorkers ra w n iters draws (List.range n) buf (initResults n)).2 =
      specTotalBytes w n iters := by
  rw [runWorkers_results_eq (List.range n) ra w n iters draws buf buf (initResults n)
    (List.nodup_range n) (fun t _ j _ _ => rfl)]
  rw [publish_foldl_range ra w n iters draws buf]
  unfold totalBytes
  rw [totalBytes_foldl _ 0 M64_pos, List.map_map]
  have hterm : ∀ t ∈ List.range n,
      (ThreadResult.bytes_processed ∘ fun t =>
        if partEnd w (wordsPerThread w n) t ≤ partBegin w (wordsPerThread w n) t
        then (⟨0, 0⟩ : ThreadResult)
        else ⟨(localOut ra w n iters (draws t) t buf).bytes,
          (localOut ra w n iters (draws t) t buf).sum⟩) t
        = partSize w n t * iters * 2 * 8 := by
    intro t ht
    by_cases hb : partEnd w (wordsPerThread w n) t ≤ partBegin w (wordsPerThread w n) t
    · simp only [Function.comp_apply, if_pos hb]
      have hsz : partSize w n t = 0 := by unfold partSize; omega
      rw [hsz]
      ring
    · simp only [Function.comp_apply, if_neg hb]
      unfold localOut
      rw [workerLoop_bytes iters ra (draws t) _ _ buf 0 0 0 M64_pos, Nat.zero_add]
      have hre : iters * ((partEnd w (wordsPerThread w n) t -
          partBegin w (wordsPerThread w n) t) * 8 * 2) = partSize w n t * iters * 2 * 8 := by
        unfold partSize
        ring
      rw [hre]
      refine Nat.mod_eq_of_lt (lt_of_le_of_lt ?_ hov)
      refine List.single_le_sum (fun x _ => Nat.zero_le x) _ ?_
      exact List.mem_map.mpr ⟨t, ht, rfl⟩
  rw [List.map_congr_left hterm, Nat.zero_add]
  exact Nat.mod_eq_of_lt hov

/-- Witness for C2 at the spec's concrete instance: `w = 8` words, `n = 2`
threads, one iteration, sequential mode: `total_bytes = 128`. -/
theorem total_bytes_eq_spec_witness :
    totalBytes (runWorkers false 8 2 1 (fun _ _ => 0) (List.range 2)
      (fun _ => 0) (initResults 2)).2 = 128 :=
  (total_bytes_eq_spec false 8 2 1 (fun _ _ => 0) (fun _ => 0) (by omega)
    (by decide)).trans (by decide)

/-- Claim C4: For a fixed initial buffer, fixed per-worker draw streams and a
fixed configuration, the published results — and therefore `combined_checksum`
— do not depend on the order in which the workers execute: any two
sequentialisations of the `n` workers (each worker running exactly once)
produce identical result vectors and identical combined checksums, because
each worker's checksum depends only on its own disjoint partition and the XOR
combinator is associative and commutative. -/
theorem checksum_interleaving_independent (ra : Bool) (w n iters : Nat)
    (draws : Nat → Nat → Nat) (buf : Buffer) (o1 o2 : List Nat)
    (h1 : o1.Perm (List.range n)) (h2 : o2.Perm (List.range n)) :
    (runWorkers ra w n iters draws o1 buf (initResults n)).2 =
      (runWorkers ra w n iters draws o2 buf (initResults n)).2 ∧
    totalChecksum (runWorkers ra w n iters draws o1 buf (initResults n)).2 =
      totalChecksum (runWorkers ra w n iters draws o2 buf (initResults n)).2 := by
  have hnd1 : o1.Nodup := h1.nodup_iff.mpr (List.nodup_range n)
  have hnd2 : o2.Nodup := h2.nodup_iff.mpr (List.nodup_range n)
  have he : (runWorkers ra w n iters draws o1 buf (initResults n)).2 =
      (runWorkers ra w n iters draws o2 buf (initResults n)).2 := by
    rw [runWorkers_results_eq o1 ra w n iters draws buf buf (initResults n) hnd1
      (fun t _ j _ _ => rfl)]
    rw [runWorkers_results_eq o2 ra w n iters draws buf buf (initResults n) hnd2
      (fun t _ j _ _ => rfl)]
    exact publish_foldl_perm ra w n iters draws buf o1 o2 (h1.trans h2.symm)
      (initResults n)
  exact ⟨he, congrArg totalChecksum he⟩

/-- Witness for C4: two opposite execution orders of a 2-thread run over a
4-word buffer give the same combined checksum. -/
theorem checksum_interleaving_independent_witness :
    totalChecksum (runWorkers true 4 2 1 (fun _ _ => 0) [0, 1]
        (fun _ => 0) (initResults 2)).2 =
      totalChecksum (runWorkers true 4 2 1 (fun _ _ => 0) [1, 0]
        (fun _ => 0) (initResults 2)).2 :=
  (checksum_interleaving_independent true 4 2 1 (fun _ _ => 0) (fun _ => 0)
    [0, 1] [1, 0] (by decide) (by decide)).2

/-- Claim C3: In random mode, for every worker with a non-empty partition
`[begin, end)`, every pass performs exactly `end - begin` draws, and every
index read or written lies strictly within `[begin, end)` — for every engine
output stream, every position in it, every checksum accumulator and every
buffer content (so the bound holds on every pass of the iteration loop). -/
theorem random_pass_stays_in_partition (w n tid : Nat) (draws : Nat → Nat)
    (buf : Buffer) (sum d : Nat)
    (hne : partBegin w (wordsPerThread w n) tid < partEnd w (wordsPerThread w n) tid) :
    (randPassFrom draws (partBegin w (wordsPerThread w n) tid)
        (partEnd w (wordsPerThread w n) tid) buf sum d
        (partEnd w (wordsPerThread w n) tid -
          partBegin w (wordsPerThread w n) tid)).visited.length =
      partEnd w (wordsPerThread w n) tid - partBegin w (wordsPerThread w n) tid ∧
    ∀ i ∈ (randPassFrom draws (partBegin w (wordsPerThread w n) tid)
        (partEnd w (wordsPerThread w n) tid) buf sum d
        (partEnd w (wordsPerThread w n) tid -
          partBegin w (wordsPerThread w n) tid)).visited,
      partBegin w (wordsPerThread w n) tid ≤ i ∧
        i < partEnd w (wordsPerThread w n) tid :=
  randPassFrom_visited _ draws _ _ buf sum d hne

/-- Witness for C3: worker 0 of a 2-thread run over 4 words has partition
`[0, 2)`; a pass performs exactly 2 draws. -/
theorem random_pass_stays_in_partition_witness :
    (randPassFrom (fun k => k) (partBegin 4 (wordsPerThread 4 2) 0)
        (partEnd 4 (wordsPerThread 4 2) 0) (fun _ => 0) 0 0
        (partEnd 4 (wordsPerThread 4 2) 0 -
          partBegin 4 (wordsPerThread 4 2) 0)).visited.length =
      partEnd 4 (wordsPerThread 4 2) 0 - partBegin 4 (wordsPerThread 4 2) 0 :=
  (random_pass_stays_in_partition 4 2 0 (fun k => k) (fun _ => 0) 0 0 (by decide)).1

/-- Claim C10: One sequential pass maps each element `v` of the partition to
`v XOR 0xA5A5A5A5A5A5A5A5`; XOR by a constant is an involution, so a
sequential run with an even iteration count — each worker performs the same
number of passes over its own partition, and the default `ITERATIONS = 10` is
even — leaves every buffer element equal to its value before the run,
whatever the execution order of the workers. -/
theorem sequential_even_run_restores_buffer :
    (∀ (buf : Buffer) (sum b e j : Nat), b ≤ j → j < e →
      (seqPassFrom buf sum b (e - b)).1 j = buf j ^^^ SEQ_MASK) ∧
    (∀ (w n k : Nat) (draws : Nat → Nat → Nat) (order : List Nat) (buf : Buffer)
      (res : List ThreadResult) (j : Nat),
      (runWorkers false w n (2 * k) draws order buf res).1 j = buf j) ∧
    ITERATIONS = 2 * 5 := by
  refine ⟨?_, ?_, rfl⟩
  · intro buf sum b e j h1 h2
    rw [seqPassFrom_buf, if_pos (by omega)]
  · intro w n k draws order buf res j
    induction order generalizing buf res with
    | nil => rfl
    | cons t rest ih =>
      simp only [runWorkers]
      have hbuf : (worker false w n (2 * k) (draws t) t buf res).1 = buf := by
        funext j'
        simp only [worker]
        split_ifs with hbe
        · rfl
        · show (workerLoop false (draws t) (partBegin w (wordsPerThread w n) t)
            (partEnd w (wordsPerThread w n) t) (2 * k) buf 0 0 0).buf j' = buf j'
          rw [workerLoop_seq_buf]
          split_ifs with hc
          · exact xorMask_iterate_even k (buf j')
          · rfl
      rw [hbuf]
      exact ih buf _

/-- Witness for C10: a single pass sends cell value 3 to `3 XOR SEQ_MASK`, and
a 2-iteration sequential run over 4 words and 2 workers restores the constant
buffer 5 at index 2. -/
theorem sequential_even_run_restores_buffer_witness :
    (seqPassFrom (fun _ => 3) 0 0 (2 - 0)).1 0 = 3 ^^^ SEQ_MASK ∧
    (runWorkers false 4 2 (2 * 1) (fun _ _ => 0) [0, 1]
      (fun _ => 5) (initResults 2)).1 2 = 5 :=
  ⟨sequential_even_run_restores_buffer.1 (fun _ => 3) 0 0 2 0 (by omega) (by omega),
   sequential_even_run_restores_buffer.2.1 4 2 1 (fun _ _ => 0) [0, 1]
     (fun _ => 5) (initResults 2) 2⟩

/-- Claim C8: In the shipped configuration (`words = 2^26`, `NUM_THREADS = 8`)
every worker's partition is non-empty, so each worker publishes the bytes and
checksum computed by its iteration loop exactly once, after the loop, into the
result slot indexed by its own worker id, and leaves every other slot
unchanged. -/
theorem worker_publishes_own_slot_only (ra : Bool) (iters tid : Nat)
    (draws : Nat → Nat) (buf : Buffer) (results : List ThreadResult)
    (htid : tid < NUM_THREADS) (hlen : results.length = NUM_THREADS) :
    partBegin (wordCount BUFFER_SIZE)
        (wordsPerThread (wordCount BUFFER_SIZE) NUM_THREADS) tid <
      partEnd (wordCount BUFFER_SIZE)
        (wordsPerThread (wordCount BUFFER_SIZE) NUM_THREADS) tid ∧
    ((worker ra (wordCount BUFFER_SIZE) NUM_THREADS iters draws tid buf
        results).2)[tid]? =
      some ⟨(localOut ra (wordCount BUFFER_SIZE) NUM_THREADS iters draws tid buf).bytes,
        (localOut ra (wordCount BUFFER_SIZE) NUM_THREADS iters draws tid buf).sum⟩ ∧
    ∀ j, j ≠ tid →
      ((worker ra (wordCount BUFFER_SIZE) NUM_THREADS iters draws tid buf
          results).2)[j]? = results[j]? := by
  have hne : ∀ t, t < NUM_THREADS →
      partBegin (wordCount BUFFER_SIZE)
          (wordsPerThread (wordCount BUFFER_SIZE) NUM_THREADS) t <
        partEnd (wordCount BUFFER_SIZE)
          (wordsPerThread (wordCount BUFFER_SIZE) NUM_THREADS) t := by decide
  have hlt : tid < results.length := by rw [hlen]; exact htid
  refine ⟨hne tid htid, ?_, ?_⟩
  · simp only [worker, localOut]
    rw [if_neg (not_le.mpr (hne tid htid))]
    simp [List.getElem?_set_self, hlt]
  · intro j hj
    simp only [worker]
    rw [if_neg (not_le.mpr (hne tid htid))]
    exact List.getElem?_set_ne (fun hc => hj hc.symm)

/-- Witness for C8: worker 3 in the shipped configuration leaves slot 0
untouched. -/
theorem worker_publishes_own_slot_only_witness :
    ((worker false (wordCount BUFFER_SIZE) NUM_THREADS 0 (fun _ => 0) 3
        (fun _ => 0) (initResults 8)).2)[0]? = (initResults 8)[0]? :=
  (worker_publishes_own_slot_only false 0 3 (fun _ => 0) (fun _ => 0)
    (initResults 8) (by decide) (by decide)).2.2 0 (by decide)

/-- Claim C9: The per-worker PRNG seeds `0xC0FFEE ^ (tid << 32)` are pairwise
distinct across the `NUM_THREADS` workers: no two workers seed their
`mt19937_64` engines identically. -/
theorem seeds_pairwise_distinct : ∀ t1, t1 < NUM_THREADS → ∀ t2, t2 < NUM_THREADS →
    t1 ≠ t2 → seedOf t1 ≠ seedOf t2 := by decide

/-- Witness for C9 at workers 0 and 1. -/
theorem seeds_pairwise_distinct_witness : seedOf 0 ≠ seedOf 1 :=
  seeds_pairwise_distinct 0 (by decide) 1 (by decide) (by decide)

/-- Claim C7: The reported throughput is non-negative for every run, and a run
whose elapsed seconds are zero (or negative) reports exactly 0 rather than a
division by zero; in this exact-rational model of the `double` arithmetic
every value is finite by construction (there are no infinities or NaNs). -/
theorem throughput_nonneg_and_guard (seconds : ℚ) (tb : Nat) :
    0 ≤ throughputMBps seconds tb ∧ (seconds ≤ 0 → throughputMBps seconds tb = 0) := by
  unfold throughputMBps
  split_ifs with h
  · exact ⟨div_nonneg (div_nonneg (by positivity) (by norm_num)) h.le,
      fun hle => absurd h (not_lt.mpr hle)⟩
  · exact ⟨le_refl 0, fun _ => rfl⟩

/-- Witness for C7 at elapsed time 0 and 128 processed bytes. -/
theorem throughput_nonneg_and_guard_witness :
    0 ≤ throughputMBps 0 128 ∧ throughputMBps 0 128 = 0 :=
  ⟨(throughput_nonneg_and_guard 0 128).1,
   (throughput_nonneg_and_guard 0 128).2 le_rfl⟩

/-- Claim C5, counterexample: A configuration whose buffer holds two words
(`BUFFER_SIZE = 16` bytes) with the 8 worker threads yields fewer than one
element per worker, yet `main` accepts it: the exit code is 0 and the run
proceeds to buffer allocation and thread spawning — the code's only
validation is `words == 0`. -/
theorem validation_gap_counterexample :
    0 < wordCount 16 ∧ wordCount 16 < NUM_THREADS ∧
    exitCode 16 NUM_THREADS = 0 ∧ MainEvent.alloc ∈ (mainRun 16 NUM_THREADS).1 := by
  decide

/-- Claim C5, amended: `main` validates only that the buffer yields at least
one word: a configuration with `words == 0` is rejected before any allocation
or spawn event, with a diagnostic and exit code 1; every configuration with at
least one word — including those yielding fewer than one element per worker —
proceeds and exits with code 0 (the thread count is a fixed positive
compile-time constant and is never validated at runtime). -/
theorem config_validation (bs n : Nat) :
    (wordCount bs = 0 →
      exitCode bs n = 1 ∧ MainEvent.alloc ∉ (mainRun bs n).1 ∧
      ∀ t, MainEvent.spawn t ∉ (mainRun bs n).1) ∧
    (wordCount bs ≠ 0 → exitCode bs n = 0) := by
  constructor
  · intro h
    simp [exitCode, mainRun, h]
  · intro h
    simp [exitCode, mainRun, h]

/-- Witness for C5 (amended): 4 bytes yield zero words and exit code 1;
8 bytes yield one word and exit code 0. -/
theorem config_validation_witness :
    exitCode 4 NUM_THREADS = 1 ∧ exitCode 8 NUM_THREADS = 0 :=
  ⟨((config_validation 4 NUM_THREADS).1 (by decide)).1,
   (config_validation 8 NUM_THREADS).2 (by decide)⟩

theorem gate_inv {n : Nat} {s : GateSys n} (h : GateReachable s) :
    s.go = s.released ∧
    ∀ t, (s.pc t = WPc.timedLoop ∨ s.pc t = WPc.done) → s.released = true := by
  induction h with
  | init =>
    refine ⟨rfl, fun t ht => ?_⟩
    simp [GateSys.init] at ht
  | step hr hstep ih =>
    cases hstep with
    | callWait t ht =>
      refine ⟨ih.1, fun t' ht' => ?_⟩
      by_cases htt : t' = t
      · subst htt
        simp only [Function.update_same] at ht'
        rcases ht' with h | h <;> exact absurd h (by decide)
      · simp only [Function.update_noteq htt] at ht'
        exact ih.2 t' ht'
    | passWait t ht hgo =>
      exact ⟨ih.1, fun t' ht' => ih.1 ▸ hgo⟩
    | release =>
      exact ⟨rfl, fun t' ht' => rfl⟩
    | finish t ht =>
      refine ⟨ih.1, fun t' ht' => ?_⟩
      by_cases htt : t' = t
      · subst htt
        exact ih.2 t' (Or.inl ht)
      · simp only [Function.update_noteq htt] at ht'
        exact ih.2 t' ht'

/-- Claim C6: For the `StartGate` transition system: (i) in every reachable
state, a worker that has entered (or finished) its timed loop can only have
done so after `release()` executed — `wait()` does not complete before
`release()`; (ii) the `go` condition persists across every step once set, so
`release()` also lets every not-yet-waiting thread pass later; (iii) whenever
`go` is set, a waiting thread's `wait()` can complete immediately (late
arrivals never block). -/
theorem gate_correct (n : Nat) :
    (∀ s : GateSys n, GateReachable s → ∀ t,
      (s.pc t = WPc.timedLoop ∨ s.pc t = WPc.done) → s.released = true) ∧
    (∀ s s' : GateSys n, GateStep s s' → s.go = true → s'.go = true) ∧
    (∀ (s : GateSys n) (t : Fin n), s.go = true → s.pc t = WPc.waiting →
      GateStep s { s with pc := Function.update s.pc t WPc.timedLoop }) := by
  refine ⟨fun s hs t ht => (gate_inv hs).2 t ht, ?_, ?_⟩
  · intro s s' hstep hgo
    cases hstep with
    | callWait t ht => exact hgo
    | passWait t ht h2 => exact hgo
    | release => rfl
    | finish t ht => exact hgo
  · intro s t hgo hpc
    exact GateStep.passWait s t hpc hgo

/-- Witness for C6: a concrete trace for one worker — release, then the worker
calls `wait()` and passes it — reaches a state whose `released` flag the
theorem confirms. -/
theorem gate_correct_witness :
    (⟨true, true,
      Function.update (Function.update (fun _ => WPc.setup) (0 : Fin 1) WPc.waiting)
        0 WPc.timedLoop⟩ : GateSys 1).released = true := by
  have h0 : GateReachable (GateSys.init 1) := GateReachable.init
  have h1 : GateReachable (⟨true, true, fun _ => WPc.setup⟩ : GateSys 1) :=
    GateReachable.step h0 (GateStep.release _)
  have h2 : GateReachable (⟨true, true,
      Function.update (fun _ => WPc.setup) (0 : Fin 1) WPc.waiting⟩ : GateSys 1) :=
    GateReachable.step h1 (GateStep.callWait _ 0 rfl)
  have h3 : GateReachable (⟨true, true,
      Function.update (Function.update (fun _ => WPc.setup) (0 : Fin 1) WPc.waiting)
        0 WPc.timedLoop⟩ : GateSys 1) :=
    GateReachable.step h2 (GateStep.passWait _ 0 (by simp) rfl)
  exact (gate_correct 1).1 _ h3 0 (Or.inl (by simp))

end MemStress
